import Mathlib

/-!
Shallow embedding of the market-simulation core of `mmatamm-interface`
(`src/market.rs` and `src/questdb_market.rs`).

Modelling conventions:
* `DateTime<Utc>` timestamps are integers (`ℤ`, think micro/nanoseconds since
  the epoch); `chrono::TimeDelta` tick durations are integers as well.
* `f64` cash and prices are rationals (`ℚ`): the claims under study concern
  exact comparisons and sign preservation, for which real-number semantics is
  the intended reading.
* `u32` share quantities are `ℕ`.
* The `tokio_postgres` database behind `db_client` is modelled as a value of
  type `Store`: a transport-failure flag (any query fails with a database
  error), the `system_events` table rows (raw symbol text plus timestamp, so
  that malformed rows are representable), and the `ticks` table rows
  (symbol, timestamp, close price).  The SQL queries prepared in
  `QuestDbMarket::new` are embedded as the functions `next_system_event`
  (min-timestamp row with `timestamp > $1`) and the lookup inside
  `price_at` (max-timestamp row with `timestamp <= $1 AND symbol = $2`).
* `&mut self` methods return the updated state paired with the `Result`;
  `Result<T, Error>` becomes `Except Error T`.  `next_event_or_tick`
  additionally contains a `.unwrap()` that can panic, so its outcome type
  `Outcome` has a dedicated `panicked` constructor (a Rust panic unwinds and
  the state is never observed again; we pair `panicked` with the unchanged
  state purely to keep the type uniform).
-/

namespace MmatammInterface

/-- Decidable equality for `Except`, so that concrete runs of the embedded
operations can be checked by `decide`. -/
instance exceptDecEq {ε α : Type} [DecidableEq ε] [DecidableEq α] :
    DecidableEq (Except ε α) := fun x y =>
  match x, y with
  | Except.ok a, Except.ok b =>
      if h : a = b then Decidable.isTrue (by rw [h])
      else Decidable.isFalse (by simp [h])
  | Except.ok _, Except.error _ => Decidable.isFalse (by simp)
  | Except.error _, Except.ok _ => Decidable.isFalse (by simp)
  | Except.error a, Except.error b =>
      if h : a = b then Decidable.isTrue (by rw [h])
      else Decidable.isFalse (by simp [h])

/-- `Event` from `src/market.rs`. -/
inductive Event where
  | tick
  | preMarketStart
  | regularMarketStart
  | regularMarketEnd
  | postMarketEnd
  deriving DecidableEq, Repr

/-- `MarketTime` from `src/market.rs` (`NotTrading` is the spec's "Closed"). -/
inductive MarketTime where
  | notTrading
  | preMarket
  | regular
  | postMarket
  | unknown
  deriving DecidableEq, Repr

/-- `ImpossibleEvent` from `src/market.rs`. -/
inductive ImpossibleEvent where
  | marketTimeSkip (event : Event) (market_time : MarketTime)
  deriving DecidableEq, Repr

/-- The body of the `update_market_time!` macro in `src/market.rs`: move to
`next` when the current phase is `current` or `Unknown`, otherwise fail with
`MarketTimeSkip` (leaving the phase unchanged: the caller keeps the old phase
on error). -/
def update_market_time (self : MarketTime) (event : Event)
    (current next : MarketTime) : Except ImpossibleEvent MarketTime :=
  if self = current ∨ self = MarketTime.unknown then
    Except.ok next
  else
    Except.error (ImpossibleEvent.marketTimeSkip event self)

/-- `MarketTime::update` from `src/market.rs`.  In Rust it mutates `self` and
returns `Result<(), _>`; here it returns the new phase on success. -/
def MarketTime.update (self : MarketTime) (event : Event) :
    Except ImpossibleEvent MarketTime :=
  match event with
  | Event.preMarketStart =>
      update_market_time self event MarketTime.notTrading MarketTime.preMarket
  | Event.regularMarketStart =>
      update_market_time self event MarketTime.preMarket MarketTime.regular
  | Event.regularMarketEnd =>
      update_market_time self event MarketTime.regular MarketTime.postMarket
  | Event.postMarketEnd =>
      update_market_time self event MarketTime.postMarket MarketTime.notTrading
  | _ => Except.ok self

/-- `MarketTime::is_open` from `src/market.rs`. -/
def MarketTime.is_open (self : MarketTime) : Bool :=
  self = MarketTime.preMarket || self = MarketTime.regular
    || self = MarketTime.postMarket

/-- `questdb_market::Error`.  `DatabaseError` abstracts the wrapped
`tokio_postgres::Error`; note the enum has no `InvalidTickGranularity`
variant. -/
inductive Error where
  | databaseError
  | untimelyTrade (symbol : String) (time : ℤ)
  | unknownPrice (symbol : String)
  | insufficientCash (quantity : ℕ) (symbol : String) (total_price : ℚ) (cash : ℚ)
  | insufficientShares (quantity : ℕ) (symbol : String) (owned : ℕ)
  | unexpectedDatabaseSymbol (symbol : String) (expected_kind : String)
  | impossibleEvent (e : ImpossibleEvent)
  | futureQuery (future_time : ℤ) (current_time : ℤ)
  deriving DecidableEq, Repr

/-- The external QuestDB/Postgres store behind `db_client`. -/
structure Store where
  /-- When true, every query returns a transport error
  (`Error::DatabaseError`). -/
  fail : Bool
  /-- Rows of the `system_events` table: raw event-kind text and timestamp. -/
  systemRows : List (String × ℤ)
  /-- Rows of the `ticks` table: symbol, timestamp, close price. -/
  tickRows : List (String × ℤ × ℚ)
  deriving DecidableEq, Repr

/-- The mutable state of `QuestDbMarket` (`db_client` and the prepared
statements are carried by the `Store` parameter of each operation). -/
structure QuestDbMarket where
  time : ℤ
  market_time : MarketTime
  events : List (ℤ × Event)
  cash : ℚ
  holdings : List (String × ℕ)
  deriving DecidableEq, Repr

/-- `QuestDbMarket::new` (statement preparation aside): clock at `start`,
phase `Unknown`, empty internal event queue, empty holdings. -/
def QuestDbMarket.new (start : ℤ) (cash : ℚ) : QuestDbMarket :=
  { time := start
    market_time := MarketTime.unknown
    events := []
    cash := cash
    holdings := [] }

/-- The `match next_row.get(0)` arm of `next_system_event`: decode the raw
event-kind text of a `system_events` row. -/
def parse_system_event (s : String) : Except Error Event :=
  if s = "system_hours_start" then Except.ok Event.preMarketStart
  else if s = "regular_hours_start" then Except.ok Event.regularMarketStart
  else if s = "regular_hours_end" then Except.ok Event.regularMarketEnd
  else if s = "system_hours_end" then Except.ok Event.postMarketEnd
  else Except.error (Error.unexpectedDatabaseSymbol s "system event")

/-- Row with the minimal timestamp (`ORDER BY timestamp ASC LIMIT 1`);
among equal timestamps the earliest row in the list is taken (the SQL order
among ties is unspecified, so any deterministic choice models it). -/
def minSystemRow : List (String × ℤ) → Option (String × ℤ)
  | [] => none
  | r :: rs =>
    match minSystemRow rs with
    | none => some r
    | some b => if r.2 ≤ b.2 then some r else some b

/-- `QuestDbMarket::next_system_event`: the `system_events` row with the least
timestamp strictly after the current virtual time, decoded. -/
def next_system_event (store : Store) (m : QuestDbMarket) :
    Except Error (Option (ℤ × Event)) :=
  if store.fail then Except.error Error.databaseError
  else
    match minSystemRow (store.systemRows.filter (fun r => m.time < r.2)) with
    | none => Except.ok none
    | some r =>
      match parse_system_event r.1 with
      | Except.error e => Except.error e
      | Except.ok ev => Except.ok (some (r.2, ev))

/-- `QuestDbMarket::peek_next_event`: merge the next store-sourced system
event with the front of the internal `events` list, preferring the internal
one when its timestamp is less than or equal (`next_sys.0 >= next_int.0`). -/
def peek_next_event (store : Store) (m : QuestDbMarket) :
    Except Error (Option (ℤ × Event)) :=
  match next_system_event store m with
  | Except.error e => Except.error e
  | Except.ok next_sys =>
    match next_sys, m.events.head? with
    | some ns, some ni =>
        if ns.1 ≥ ni.1 then Except.ok (some ni) else Except.ok (some ns)
    | some ns, none => Except.ok (some ns)
    | none, some ni => Except.ok (some ni)
    | none, none => Except.ok none

/-- `QuestDbMarket::next_event`.  Mirrors the source statement order: on a
peeked event, `self.time` is assigned FIRST and only then is the state
machine updated, so a `MarketTimeSkip` failure propagates with the clock
already advanced.  The internal `events` list is never popped (the `TODO`
in the source). -/
def next_event (store : Store) (m : QuestDbMarket) :
    QuestDbMarket × Except Error (Option (ℤ × Event)) :=
  match peek_next_event store m with
  | Except.error e => (m, Except.error e)
  | Except.ok none => (m, Except.ok none)
  | Except.ok (some (t, ev)) =>
    let m1 := { m with time := t }
    match m1.market_time.update ev with
    | Except.error e => (m1, Except.error (Error.impossibleEvent e))
    | Except.ok mt => ({ m1 with market_time := mt }, Except.ok (some (t, ev)))

/-- `chrono::DurationRound::duration_trunc` on a `DateTime<Utc>`, as used at
`self.time.duration_trunc(tick).unwrap()`: truncation toward negative
infinity.  chrono returns `Err(DurationExceedsLimit)` for a negative span and
`Err(DurationExceedsTimestamp)` when the span exceeds `|timestamp|`, and a
zero span reaches an integer division by zero; since the one call site
immediately `.unwrap()`s, every non-`Ok` outcome aborts the call, and we
collapse them to `none`. -/
def duration_trunc (t d : ℤ) : Option ℤ :=
  if d ≤ 0 ∨ |t| < d then none else some (t - t % d)

/-- Outcome of a call that can also panic (`.unwrap()` on `Err`). -/
inductive Outcome (α : Type) where
  | panicked
  | error (e : Error)
  | ok (a : α)
  deriving DecidableEq, Repr

/-- `QuestDbMarket::next_event_or_tick`.  `next_tick` is
`duration_trunc(time, tick) + tick` (panicking if the truncation fails); a
peeked event with timestamp `≤ next_tick` is delivered after a state-machine
update (here the update precedes the clock assignment, so a failure leaves
the clock untouched), otherwise a `Tick` at `next_tick` is delivered; the
clock moves to the delivered timestamp.  The internal `events` list is never
popped. -/
def next_event_or_tick (store : Store) (m : QuestDbMarket) (tick : ℤ) :
    QuestDbMarket × Outcome (ℤ × Event) :=
  match duration_trunc m.time tick with
  | none => (m, Outcome.panicked)
  | some tr =>
    let next_tick := tr + tick
    match peek_next_event store m with
    | Except.error e => (m, Outcome.error e)
    | Except.ok (some (t, ev)) =>
      if t ≤ next_tick then
        match m.market_time.update ev with
        | Except.error e => (m, Outcome.error (Error.impossibleEvent e))
        | Except.ok mt =>
            ({ m with market_time := mt, time := t }, Outcome.ok (t, ev))
      else
        ({ m with time := next_tick }, Outcome.ok (next_tick, Event.tick))
    | Except.ok none =>
        ({ m with time := next_tick }, Outcome.ok (next_tick, Event.tick))

/-- Row with the maximal timestamp among `ticks` rows (`ORDER BY timestamp
DESC LIMIT 1`); ties resolved to the earliest listed row. -/
def maxTickRow : List (String × ℤ × ℚ) → Option (String × ℤ × ℚ)
  | [] => none
  | r :: rs =>
    match maxTickRow rs with
    | none => some r
    | some b => if r.2.1 ≥ b.2.1 then some r else some b

/-- `QuestDbMarket::price_at`, instrumented with the number of store queries
the call issues (second component), so that "the store is not consulted" is
directly expressible.  The control flow is the source's: the `FutureQuery`
check precedes the single store lookup. -/
def price_at_instr (store : Store) (m : QuestDbMarket) (symbol : String)
    (t : ℤ) : Except Error ℚ × ℕ :=
  if m.time < t then
    (Except.error (Error.futureQuery t m.time), 0)
  else if store.fail then
    (Except.error Error.databaseError, 1)
  else
    match maxTickRow
        (store.tickRows.filter (fun r => r.1 = symbol ∧ r.2.1 ≤ t)) with
    | none => (Except.error (Error.unknownPrice symbol), 1)
    | some r => (Except.ok r.2.2, 1)

/-- `QuestDbMarket::price_at` (result only). -/
def price_at (store : Store) (m : QuestDbMarket) (symbol : String) (t : ℤ) :
    Except Error ℚ :=
  (price_at_instr store m symbol t).1

/-- `Market::current_price` default method: `price_at(symbol, self.time())`. -/
def current_price (store : Store) (m : QuestDbMarket) (symbol : String) :
    Except Error ℚ :=
  price_at store m symbol m.time

/-- `HashMap::get` on the holdings map, as an association-list lookup. -/
def alGet : List (String × ℕ) → String → Option ℕ
  | [], _ => none
  | (k, v) :: rest, s => if k = s then some v else alGet rest s

/-- Overwrite the value of an existing key (the `*v += quantity` /
`*v -= quantity` paths through `get_mut`). -/
def alSet : List (String × ℕ) → String → ℕ → List (String × ℕ)
  | [], _, _ => []
  | (k, v) :: rest, s, n =>
      if k = s then (k, n) :: rest else (k, v) :: alSet rest s n

/-- The holdings mutation of `buy_at_market`: add to the entry if present,
otherwise insert it. -/
def addHolding (h : List (String × ℕ)) (s : String) (q : ℕ) :
    List (String × ℕ) :=
  match alGet h s with
  | some v => alSet h s (v + q)
  | none => h ++ [(s, q)]

/-- `QuestDbMarket::buy_at_market`: open-session check, price lookup,
cash-sufficiency check, then the atomic ledger update. -/
def buy_at_market (store : Store) (m : QuestDbMarket) (symbol : String)
    (quantity : ℕ) : QuestDbMarket × Except Error Unit :=
  if ¬ m.market_time.is_open then
    (m, Except.error (Error.untimelyTrade symbol m.time))
  else
    match current_price store m symbol with
    | Except.error e => (m, Except.error e)
    | Except.ok price_per_share =>
      let total_price := price_per_share * (quantity : ℚ)
      if total_price > m.cash then
        (m, Except.error
          (Error.insufficientCash quantity symbol total_price m.cash))
      else
        ({ m with
            cash := m.cash - total_price
            holdings := addHolding m.holdings symbol quantity },
          Except.ok ())

/-- `QuestDbMarket::sell_at_market`.  Mirrors the source order: open-session
check, then the price lookup (a lookup failure propagates BEFORE the shares
check), then the shares-sufficiency check, then the atomic ledger update. -/
def sell_at_market (store : Store) (m : QuestDbMarket) (symbol : String)
    (quantity : ℕ) : QuestDbMarket × Except Error Unit :=
  if ¬ m.market_time.is_open then
    (m, Except.error (Error.untimelyTrade symbol m.time))
  else
    match current_price store m symbol with
    | Except.error e => (m, Except.error e)
    | Except.ok price_per_share =>
      let total_price := price_per_share * (quantity : ℚ)
      match alGet m.holdings symbol with
      | none =>
          (m, Except.error (Error.insufficientShares quantity symbol 0))
      | some owned =>
        if quantity > owned then
          (m, Except.error (Error.insufficientShares quantity symbol owned))
        else
          ({ m with
              cash := m.cash + total_price
              holdings := alSet m.holdings symbol (owned - quantity) },
            Except.ok ())

/-- `QuestDbMarket::shares_of`. -/
def shares_of (m : QuestDbMarket) (symbol : String) : ℕ :=
  match alGet m.holdings symbol with
  | some q => q
  | none => 0

/-- States reachable through the public operations from `QuestDbMarket::new`
against a fixed store. -/
inductive Reachable (store : Store) : QuestDbMarket → Prop where
  | new (start : ℤ) (cash : ℚ) : Reachable store (QuestDbMarket.new start cash)
  | step_next_event (m : QuestDbMarket) :
      Reachable store m → Reachable store (next_event store m).1
  | step_next_event_or_tick (m : QuestDbMarket) (d : ℤ) :
      Reachable store m → Reachable store (next_event_or_tick store m d).1
  | step_buy (m : QuestDbMarket) (s : String) (q : ℕ) :
      Reachable store m → Reachable store (buy_at_market store m s q).1
  | step_sell (m : QuestDbMarket) (s : String) (q : ℕ) :
      Reachable store m → Reachable store (sell_at_market store m s q).1

theorem next_event_events_eq (store : Store) (m : QuestDbMarket) :
    (next_event store m).1.events = m.events := by
  unfold next_event
  cases hpk : peek_next_event store m with
  | error e => rfl
  | ok o =>
    cases o with
    | none => rfl
    | some te =>
      obtain ⟨t, ev⟩ := te
      simp only []
      cases hup : MarketTime.update { m with time := t }.market_time ev with
      | error e => simp [hup]
      | ok mt => simp [hup]

theorem next_event_or_tick_events_eq (store : Store) (m : QuestDbMarket)
    (d : ℤ) : (next_event_or_tick store m d).1.events = m.events := by
  unfold next_event_or_tick
  cases htr : duration_trunc m.time d with
  | none => rfl
  | some tr =>
    cases hpk : peek_next_event store m with
    | error e => rfl
    | ok o =>
      cases o with
      | none => rfl
      | some te =>
        obtain ⟨t, ev⟩ := te
        simp only []
        by_cases hle : t ≤ tr + d
        · cases hup : MarketTime.update m.market_time ev with
          | error e => simp [hle, hup]
          | ok mt => simp [hle, hup]
        · simp [hle]

theorem buy_at_market_events_eq (store : Store) (m : QuestDbMarket)
    (s : String) (q : ℕ) : (buy_at_market store m s q).1.events = m.events := by
  unfold buy_at_market
  by_cases ho : m.market_time.is_open
  · rw [if_neg (not_not_intro ho)]
    cases hp : current_price store m s with
    | error e => rfl
    | ok p =>
      simp only []
      by_cases hc : p * (q : ℚ) > m.cash
      · rw [if_pos hc]
      · rw [if_neg hc]
  · rw [if_pos ho]

theorem sell_at_market_events_eq (store : Store) (m : QuestDbMarket)
    (s : String) (q : ℕ) : (sell_at_market store m s q).1.events = m.events := by
  unfold sell_at_market
  by_cases ho : m.market_time.is_open
  · rw [if_neg (not_not_intro ho)]
    cases hp : current_price store m s with
    | error e => rfl
    | ok p =>
      simp only []
      cases hg : alGet m.holdings s with
      | none => rfl
      | some owned =>
        simp only []
        by_cases hq : q > owned
        · rw [if_pos hq]
        · rw [if_neg hq]
  · rw [if_pos ho]

/-- Every reachable `QuestDbMarket` state has an empty internal event queue:
`new` creates it empty and no operation ever pushes to (or pops from) it. -/
theorem reachable_events_nil (store : Store) (m : QuestDbMarket)
    (h : Reachable store m) : m.events = [] := by
  induction h with
  | new start cash => rfl
  | step_next_event m _ ih => rw [next_event_events_eq]; exact ih
  | step_next_event_or_tick m d _ ih =>
      rw [next_event_or_tick_events_eq]; exact ih
  | step_buy m s q _ ih => rw [buy_at_market_events_eq]; exact ih
  | step_sell m s q _ ih => rw [sell_at_market_events_eq]; exact ih

theorem minSystemRow_mem {l : List (String × ℤ)} {r : String × ℤ}
    (h : minSystemRow l = some r) : r ∈ l := by
  induction l with
  | nil => simp [minSystemRow] at h
  | cons x xs ih =>
    simp only [minSystemRow] at h
    cases hx : minSystemRow xs with
    | none =>
      rw [hx] at h
      injection h with h
      exact h ▸ List.mem_cons_self x xs
    | some b =>
      rw [hx] at h
      simp only [] at h
      by_cases hc : x.2 ≤ b.2
      · rw [if_pos hc] at h
        injection h with h
        exact h ▸ List.mem_cons_self x xs
      · rw [if_neg hc] at h
        injection h with h
        exact List.mem_cons_of_mem x (ih (h ▸ hx))

theorem maxTickRow_mem {l : List (String × ℤ × ℚ)} {r : String × ℤ × ℚ}
    (h : maxTickRow l = some r) : r ∈ l := by
  induction l with
  | nil => simp [maxTickRow] at h
  | cons x xs ih =>
    simp only [maxTickRow] at h
    cases hx : maxTickRow xs with
    | none =>
      rw [hx] at h
      injection h with h
      exact h ▸ List.mem_cons_self x xs
    | some b =>
      rw [hx] at h
      simp only [] at h
      by_cases hc : x.2.1 ≥ b.2.1
      · rw [if_pos hc] at h
        injection h with h
        exact h ▸ List.mem_cons_self x xs
      · rw [if_neg hc] at h
        injection h with h
        exact List.mem_cons_of_mem x (ih (h ▸ hx))

/-- A system event produced by the store query has a timestamp strictly after
the current virtual time (the query is `timestamp > $1`). -/
theorem next_system_event_future (store : Store) (m : QuestDbMarket)
    (t : ℤ) (ev : Event)
    (h : next_system_event store m = Except.ok (some (t, ev))) : m.time < t := by
  unfold next_system_event at h
  by_cases hf : store.fail
  · simp [hf] at h
  · rw [if_neg hf] at h
    cases hmin : minSystemRow (store.systemRows.filter (fun r => m.time < r.2)) with
    | none => rw [hmin] at h; simp at h
    | some r =>
      rw [hmin] at h
      simp only [] at h
      cases hp : parse_system_event r.1 with
      | error e => rw [hp] at h; simp at h
      | ok ev2 =>
        rw [hp] at h
        injection h with h
        injection h with h
        have hrmem := minSystemRow_mem hmin
        have := List.mem_filter.mp hrmem
        have ht : r.2 = t := congrArg Prod.fst h
        rw [← ht]
        exact of_decide_eq_true this.2

/-- With an empty internal queue, peeking is exactly the store query. -/
theorem peek_events_nil (store : Store) (m : QuestDbMarket)
    (h : m.events = []) :
    peek_next_event store m = next_system_event store m := by
  unfold peek_next_event
  rw [h]
  cases hs : next_system_event store m with
  | error e => rfl
  | ok o => cases o with
    | none => rfl
    | some ns => rfl

/-- A successful `duration_trunc` is truncation toward negative infinity. -/
theorem duration_trunc_pos (t d : ℤ) (hd : 0 < d) (habs : d ≤ |t|) :
    duration_trunc t d = some (t - t % d) := by
  unfold duration_trunc
  rw [if_neg]
  push_neg
  exact ⟨hd, habs⟩

theorem alGet_alSet_self {h : List (String × ℕ)} {s : String} {v : ℕ}
    (hs : alGet h s = some v) (n : ℕ) : alGet (alSet h s n) s = some n := by
  induction h with
  | nil => simp [alGet] at hs
  | cons x xs ih =>
    by_cases hk : x.1 = s
    · simp [alGet, alSet, hk]
    · simp only [alGet, alSet, hk, if_false, if_neg hk] at hs ⊢
      exact ih hs

theorem alGet_alSet_other {h : List (String × ℕ)} {s s2 : String} (n : ℕ)
    (hne : s2 ≠ s) : alGet (alSet h s n) s2 = alGet h s2 := by
  induction h with
  | nil => rfl
  | cons x xs ih =>
    by_cases hk : x.1 = s
    · simp only [alSet, if_pos hk, alGet]
      rw [if_neg (by rw [hk]; exact fun hc => hne hc.symm),
        if_neg (by rw [hk]; exact fun hc => hne hc.symm)]
    · simp only [alSet, if_neg hk, alGet]
      by_cases hk2 : x.1 = s2
      · rw [if_pos hk2, if_pos hk2]
      · rw [if_neg hk2, if_neg hk2]
        exact ih

theorem alGet_append_self {h : List (String × ℕ)} {s : String}
    (hs : alGet h s = none) (q : ℕ) : alGet (h ++ [(s, q)]) s = some q := by
  induction h with
  | nil => simp [alGet]
  | cons x xs ih =>
    by_cases hk : x.1 = s
    · simp [alGet, hk] at hs
    · simp only [alGet, if_neg hk] at hs
      simp only [List.cons_append, alGet, if_neg hk]
      exact ih hs

theorem alGet_append_other {h : List (String × ℕ)} {s s2 : String} (q : ℕ)
    (hne : s2 ≠ s) : alGet (h ++ [(s, q)]) s2 = alGet h s2 := by
  induction h with
  | nil =>
    simp only [List.nil_append, alGet]
    rw [if_neg (fun hc => hne hc.symm)]
  | cons x xs ih =>
    simp only [List.cons_append, alGet]
    by_cases hk : x.1 = s2
    · rw [if_pos hk, if_pos hk]
    · rw [if_neg hk, if_neg hk]
      exact ih

theorem alGet_addHolding_self (h : List (String × ℕ)) (s : String) (q : ℕ) :
    alGet (addHolding h s q) s = some ((alGet h s).getD 0 + q) := by
  unfold addHolding
  cases hs : alGet h s with
  | some v => simpa using alGet_alSet_self hs (v + q)
  | none => simpa using alGet_append_self hs q

theorem alGet_addHolding_other (h : List (String × ℕ)) {s s2 : String}
    (q : ℕ) (hne : s2 ≠ s) : alGet (addHolding h s q) s2 = alGet h s2 := by
  unfold addHolding
  cases hs : alGet h s with
  | some v => exact alGet_alSet_other (v + q) hne
  | none => exact alGet_append_other q hne

/-- A price returned by `price_at` is the close price of some `ticks` row. -/
theorem price_at_ok_mem (store : Store) (m : QuestDbMarket) (symbol : String)
    (t : ℤ) (p : ℚ) (h : price_at store m symbol t = Except.ok p) :
    ∃ r ∈ store.tickRows, r.2.2 = p := by
  unfold price_at price_at_instr at h
  by_cases hfut : m.time < t
  · simp [hfut] at h
  · rw [if_neg hfut] at h
    by_cases hf : store.fail
    · simp [hf] at h
    · rw [if_neg hf] at h
      cases hmax : maxTickRow
          (store.tickRows.filter (fun r => r.1 = symbol ∧ r.2.1 ≤ t)) with
      | none => rw [hmax] at h; simp at h
      | some r =>
        rw [hmax] at h
        simp only [] at h
        injection h with h
        exact ⟨r, (List.mem_filter.mp (maxTickRow_mem hmax)).1, h⟩

/-- C1: for every symbol and query time `t` strictly greater than the current
virtual time, `price_at(symbol, t)` fails with the `FutureQuery` error
carrying the requested and current times, and no store query is issued (the
instrumented query count is 0); the store is universally quantified, so this
holds regardless of the store's contents, including a store whose every
query would fail. -/
theorem price_at_no_lookahead (store : Store) (m : QuestDbMarket)
    (symbol : String) (t : ℤ) (h : m.time < t) :
    price_at store m symbol t = Except.error (Error.futureQuery t m.time) ∧
    (price_at_instr store m symbol t).2 = 0 := by
  unfold price_at price_at_instr
  rw [if_pos h]
  exact ⟨rfl, rfl⟩

/-- Concrete instance of C1: a query one unit in the future, against an
adversarial store whose every query would fail. -/
theorem price_at_no_lookahead_witness :
    price_at { fail := true, systemRows := [], tickRows := [("A", 0, 5)] }
        (QuestDbMarket.new 0 100) "A" 1
      = Except.error (Error.futureQuery 1 0) ∧
    (price_at_instr { fail := true, systemRows := [], tickRows := [("A", 0, 5)] }
        (QuestDbMarket.new 0 100) "A" 1).2 = 0 :=
  price_at_no_lookahead _ _ "A" 1 (by decide)

/-- The transition table exactly as the claim words it: `Tick` ignored;
`Closed`(=`notTrading`)+`PreMarketStart`→`PreMarket`;
`PreMarket`+`RegularMarketStart`→`Regular`;
`Regular`+`RegularMarketEnd`→`PostMarket`;
`PostMarket`+`PostMarketEnd`→`Closed`; from `Unknown` any boundary event
sets its target phase; every other pair fails with `MarketTimeSkip` carrying
the event and phase.  (Spec-side definition, for the refinement check
against the source's macro-generated `update`.) -/
def update_spec (phase : MarketTime) (event : Event) :
    Except ImpossibleEvent MarketTime :=
  match event with
  | Event.tick => Except.ok phase
  | _ =>
    let target : MarketTime :=
      match event with
      | Event.preMarketStart => MarketTime.preMarket
      | Event.regularMarketStart => MarketTime.regular
      | Event.regularMarketEnd => MarketTime.postMarket
      | _ => MarketTime.notTrading
    let legal_from : MarketTime :=
      match event with
      | Event.preMarketStart => MarketTime.notTrading
      | Event.regularMarketStart => MarketTime.preMarket
      | Event.regularMarketEnd => MarketTime.regular
      | _ => MarketTime.postMarket
    if phase = MarketTime.unknown then Except.ok target
    else if phase = legal_from then Except.ok target
    else Except.error (ImpossibleEvent.marketTimeSkip event phase)

/-- C7: `MarketTime::update` implements exactly the claimed transition table
(`update_spec`); failure returns the `MarketTimeSkip` error and no new phase,
so the caller's phase is unchanged on failure. -/
theorem update_implements_table :
    ∀ (phase : MarketTime) (event : Event),
      MarketTime.update phase event = update_spec phase event := by
  intro phase event
  cases phase <;> cases event <;> decide

/-- C8 (code bug): for a non-positive tick duration (or one exceeding the
timestamp's magnitude) the source `.unwrap()`s the failed `duration_trunc`
and panics, aborting the call instead of returning a typed error; indeed the
source `Error` enum has no `InvalidTickGranularity` variant the call could
return. -/
theorem next_event_or_tick_panics_on_bad_granularity (store : Store)
    (m : QuestDbMarket) (d : ℤ) (h : d ≤ 0 ∨ |m.time| < d) :
    next_event_or_tick store m d = (m, Outcome.panicked) := by
  have htr : duration_trunc m.time d = none := by
    unfold duration_trunc
    exact if_pos h
  unfold next_event_or_tick
  rw [htr]

/-- Concrete instance of C8's failing input: zero tick duration. -/
theorem next_event_or_tick_panics_on_bad_granularity_witness :
    next_event_or_tick { fail := false, systemRows := [], tickRows := [] }
        (QuestDbMarket.new 0 100) 0
      = (QuestDbMarket.new 0 100, Outcome.panicked) :=
  next_event_or_tick_panics_on_bad_granularity _ _ 0 (Or.inl (by decide))

/-- C6 (amended): whenever the session is open, the current-price lookup
succeeds, and `quantity` exceeds the owned share count (0 if the symbol is
absent), `sell_at_market` fails with `InsufficientShares` carrying the
quantity, symbol and owned count, leaving the entire state (ledger included)
unchanged.  The source performs the price lookup BEFORE the shares check, so
the success of the lookup is a genuine hypothesis: a lookup failure
propagates instead (see the counterexample). -/
theorem sell_insufficient_shares (store : Store) (m : QuestDbMarket)
    (symbol : String) (quantity : ℕ) (p : ℚ)
    (ho : m.market_time.is_open = true)
    (hp : current_price store m symbol = Except.ok p)
    (hq : (alGet m.holdings symbol).getD 0 < quantity) :
    sell_at_market store m symbol quantity
      = (m, Except.error (Error.insufficientShares quantity symbol
            ((alGet m.holdings symbol).getD 0))) := by
  unfold sell_at_market
  rw [if_neg (not_not_intro ho), hp]
  simp only []
  cases halg : alGet m.holdings symbol with
  | none => simp
  | some owned =>
    rw [halg] at hq
    simp only [Option.getD_some] at hq ⊢
    rw [if_pos hq]

/-- Store with an open-session boundary event and no price rows at all. -/
def sellNoPriceStore : Store :=
  { fail := false, systemRows := [("system_hours_start", 1)], tickRows := [] }

/-- State reached from `new 0 100` by one `next_event`: time 1, pre-market,
no holdings. -/
def sellNoPriceM : QuestDbMarket :=
  (next_event sellNoPriceStore (QuestDbMarket.new 0 100)).1

/-- C6 counterexample: in a reachable open-session state owning no shares of
"A", selling 1 share fails with `UnknownPrice`, not `InsufficientShares`:
the insufficient-shares check does not precede the price computation, and
the outcome does depend on whether a current price is available. -/
theorem sell_insufficient_shares_cex :
    sellNoPriceM.market_time.is_open = true ∧
    (alGet sellNoPriceM.holdings "A").getD 0 < 1 ∧
    sell_at_market sellNoPriceStore sellNoPriceM "A" 1
      = (sellNoPriceM, Except.error (Error.unknownPrice "A")) := by
  decide

/-- Store with an open-session boundary event and a price for "A". -/
def sellPricedStore : Store :=
  { fail := false, systemRows := [("system_hours_start", 1)],
    tickRows := [("A", 0, 5)] }

/-- State reached from `new 0 100` by one `next_event`: time 1, pre-market,
no holdings, price for "A" available. -/
def sellPricedM : QuestDbMarket :=
  (next_event sellPricedStore (QuestDbMarket.new 0 100)).1

/-- Concrete instance of the amended C6: price available, no shares owned:
the sale of 2 shares fails with `InsufficientShares{2, "A", 0}`, state
unchanged. -/
theorem sell_insufficient_shares_witness :
    sell_at_market sellPricedStore sellPricedM "A" 2
      = (sellPricedM, Except.error (Error.insufficientShares 2 "A" 0)) := by
  rw [sell_insufficient_shares sellPricedStore sellPricedM "A" 2 5
    (by decide) (by decide) (by decide)]
  decide

/-- C5: `buy_at_market(symbol, quantity)` fails with `UntimelyTrade` when the
session is not open; propagates a price-lookup failure with the state
unmutated; fails with `InsufficientCash` carrying quantity, symbol, total
and cash exactly when `total > cash` (state unmutated); and on success
atomically sets `cash` to `cash - total` and the symbol's holding to its
previous value (0 if absent) plus `quantity`, other symbols untouched. -/
theorem buy_at_market_spec (store : Store) (m : QuestDbMarket)
    (symbol : String) (quantity : ℕ) :
    (m.market_time.is_open = false →
      buy_at_market store m symbol quantity
        = (m, Except.error (Error.untimelyTrade symbol m.time))) ∧
    (∀ e, current_price store m symbol = Except.error e →
      m.market_time.is_open = true →
      buy_at_market store m symbol quantity = (m, Except.error e)) ∧
    (∀ p, current_price store m symbol = Except.ok p →
      m.market_time.is_open = true →
      m.cash < p * (quantity : ℚ) →
      buy_at_market store m symbol quantity
        = (m, Except.error (Error.insufficientCash quantity symbol
              (p * (quantity : ℚ)) m.cash))) ∧
    (∀ p, current_price store m symbol = Except.ok p →
      m.market_time.is_open = true →
      p * (quantity : ℚ) ≤ m.cash →
      buy_at_market store m symbol quantity
        = ({ m with
              cash := m.cash - p * (quantity : ℚ)
              holdings := addHolding m.holdings symbol quantity },
           Except.ok ()) ∧
      alGet (addHolding m.holdings symbol quantity) symbol
        = some ((alGet m.holdings symbol).getD 0 + quantity) ∧
      (∀ s2, s2 ≠ symbol →
        alGet (addHolding m.holdings symbol quantity) s2
          = alGet m.holdings s2)) := by
  refine ⟨?_, ?_, ?_, ?_⟩
  · intro ho
    unfold buy_at_market
    rw [if_pos (by simp [ho])]
  · intro e hp ho
    unfold buy_at_market
    rw [if_neg (not_not_intro ho), hp]
  · intro p hp ho hlt
    unfold buy_at_market
    rw [if_neg (not_not_intro ho), hp]
    simp only []
    rw [if_pos hlt]
  · intro p hp ho hle
    refine ⟨?_, alGet_addHolding_self m.holdings symbol quantity,
      fun s2 hs2 => alGet_addHolding_other m.holdings quantity hs2⟩
    unfold buy_at_market
    rw [if_neg (not_not_intro ho), hp]
    simp only []
    rw [if_neg (not_lt.mpr hle)]

/-- Store with an open-session boundary event and price 1 for "A". -/
def buyStore : Store :=
  { fail := false, systemRows := [("system_hours_start", 1)],
    tickRows := [("A", 0, 1)] }

/-- State reached from `new 0 100` by one `next_event`: time 1, pre-market,
cash 100, no holdings. -/
def buyM : QuestDbMarket :=
  (next_event buyStore (QuestDbMarket.new 0 100)).1

/-- Concrete instance of C5's success case (the spec's scenario): cash 100,
buy 100 shares at price 1: cash becomes 0 and the holding 100. -/
theorem buy_at_market_spec_witness :
    (buy_at_market buyStore buyM "A" 100).2 = Except.ok () ∧
    (buy_at_market buyStore buyM "A" 100).1.cash = 0 ∧
    alGet (buy_at_market buyStore buyM "A" 100).1.holdings "A" = some 100 := by
  have h := (buy_at_market_spec buyStore buyM "A" 100).2.2.2 1
    (by decide) (by decide) (by with_unfolding_all decide)
  rw [h.1]
  exact ⟨rfl, by with_unfolding_all decide, by with_unfolding_all decide⟩

/-- `peek_next_event` reads only the clock and the internal queue of the
market state. -/
theorem peek_congr (store : Store) (m1 m2 : QuestDbMarket)
    (ht : m1.time = m2.time) (he : m1.events = m2.events) :
    peek_next_event store m1 = peek_next_event store m2 := by
  unfold peek_next_event next_system_event
  rw [ht, he]

/-- A successful `next_event` leaves the clock at the delivered timestamp. -/
theorem next_event_ok_time (store : Store) (m : QuestDbMarket) (t : ℤ)
    (ev : Event) (h : (next_event store m).2 = Except.ok (some (t, ev))) :
    (next_event store m).1.time = t := by
  unfold next_event at h ⊢
  cases hpk : peek_next_event store m with
  | error e => rw [hpk] at h; simp at h
  | ok o =>
    cases o with
    | none => rw [hpk] at h; simp at h
    | some te =>
      obtain ⟨t0, ev0⟩ := te
      rw [hpk] at h
      simp only [] at h ⊢
      cases hup : MarketTime.update m.market_time ev0 with
      | error e => rw [hup] at h; simp at h
      | ok mt =>
        rw [hup] at h
        simp only [] at h ⊢
        injection h with h
        injection h with h
        exact congrArg Prod.fst h

/-- When the clock sits exactly at the front event's timestamp, peeking
returns that front event again (the store query only yields strictly later
rows, which lose the `>=` comparison against the front). -/
theorem peek_front_again (store : Store) (m : QuestDbMarket) (t : ℤ)
    (ev : Event) (hfail : store.fail = false)
    (hwf : ∀ r ∈ store.systemRows, ∃ e2, parse_system_event r.1 = Except.ok e2)
    (hhead : m.events.head? = some (t, ev)) (htime : m.time = t) :
    peek_next_event store m = Except.ok (some (t, ev)) := by
  unfold peek_next_event next_system_event
  rw [if_neg (by rw [hfail]; exact Bool.false_ne_true)]
  cases hmin : minSystemRow (store.systemRows.filter (fun r => m.time < r.2)) with
  | none =>
    simp only []
    rw [hhead]
  | some r =>
    have hrmem := List.mem_filter.mp (minSystemRow_mem hmin)
    obtain ⟨e2, hp⟩ := hwf r hrmem.1
    simp only []
    rw [hp]
    simp only []
    rw [hhead]
    simp only []
    have hgt : t < r.2 := by
      have := of_decide_eq_true hrmem.2
      rw [htime] at this
      exact this
    rw [if_pos (le_of_lt hgt)]

/-- C3 (amended): a failing `next_event_or_tick` is all-or-nothing: every
error leaves the state (clock, phase, ledger, queue) exactly as before.  A
failing `next_event` leaves the phase, ledger and internal queue unchanged,
and leaves the clock unchanged when peeking itself fails; but when the
peeked event is rejected by the session state machine, the clock has
already been advanced to the rejected event's timestamp (the source assigns
`self.time` before `market_time.update`), so full rollback fails for
`next_event` — see the counterexample. -/
theorem advancement_rollback (store : Store) (m : QuestDbMarket) (d : ℤ) :
    (∀ e, (next_event_or_tick store m d).2 = Outcome.error e →
      (next_event_or_tick store m d).1 = m) ∧
    (∀ e, (next_event store m).2 = Except.error e →
      (next_event store m).1.market_time = m.market_time ∧
      (next_event store m).1.cash = m.cash ∧
      (next_event store m).1.holdings = m.holdings ∧
      (next_event store m).1.events = m.events) ∧
    (∀ e, peek_next_event store m = Except.error e →
      next_event store m = (m, Except.error e)) ∧
    (∀ t ev e2, peek_next_event store m = Except.ok (some (t, ev)) →
      MarketTime.update m.market_time ev = Except.error e2 →
      next_event store m
        = ({ m with time := t }, Except.error (Error.impossibleEvent e2))) := by
  refine ⟨?_, ?_, ?_, ?_⟩
  · intro e h
    unfold next_event_or_tick at h ⊢
    cases htr : duration_trunc m.time d with
    | none => rfl
    | some tr =>
      rw [htr] at h
      simp only [] at h ⊢
      cases hpk : peek_next_event store m with
      | error e0 => rfl
      | ok o =>
        cases o with
        | none => rw [hpk] at h; simp at h
        | some te =>
          obtain ⟨t0, ev0⟩ := te
          rw [hpk] at h
          simp only [] at h ⊢
          by_cases hle : t0 ≤ tr + d
          · rw [if_pos hle] at h ⊢
            cases hup : MarketTime.update m.market_time ev0 with
            | error e1 => rfl
            | ok mt => rw [hup] at h; simp at h
          · rw [if_neg hle] at h
            simp at h
  · intro e h
    unfold next_event at h ⊢
    cases hpk : peek_next_event store m with
    | error e0 => exact ⟨rfl, rfl, rfl, rfl⟩
    | ok o =>
      cases o with
      | none => rw [hpk] at h; simp at h
      | some te =>
        obtain ⟨t0, ev0⟩ := te
        rw [hpk] at h
        simp only [] at h ⊢
        cases hup : MarketTime.update m.market_time ev0 with
        | error e1 => exact ⟨rfl, rfl, rfl, rfl⟩
        | ok mt => rw [hup] at h; simp at h
  · intro e h
    unfold next_event
    rw [h]
  · intro t ev e2 hpk hup
    unfold next_event
    rw [hpk]
    simp only []
    rw [hup]

/-- Store whose next two system events are both `PreMarketStart`. -/
def skipStore : Store :=
  { fail := false
    systemRows := [("system_hours_start", 5), ("system_hours_start", 9)]
    tickRows := [] }

/-- Reachable state: one successful `next_event` from `new 3 100` leaves
time 5 and phase pre-market. -/
def skipM : QuestDbMarket := (next_event skipStore (QuestDbMarket.new 3 100)).1

/-- C3 counterexample: the next `next_event` call fails with `MarketTimeSkip`
(a state-machine rejection), yet afterwards `time()` reads 9 instead of the
pre-call 5: the failed advancement moved the virtual clock. -/
theorem advancement_rollback_cex :
    (next_event skipStore skipM).2
      = Except.error (Error.impossibleEvent
          (ImpossibleEvent.marketTimeSkip Event.preMarketStart
            MarketTime.preMarket)) ∧
    skipM.time = 5 ∧ (next_event skipStore skipM).1.time = 9 := by
  decide

/-- Store that fails every query. -/
def failStore : Store := { fail := true, systemRows := [], tickRows := [] }

/-- Concrete instance of the amended C3: a store error during
`next_event_or_tick` leaves the state exactly as before the call. -/
theorem advancement_rollback_witness :
    (next_event_or_tick failStore (QuestDbMarket.new 60 100) 60).1
      = QuestDbMarket.new 60 100 :=
  (advancement_rollback failStore (QuestDbMarket.new 60 100) 60).1
    Error.databaseError (by decide)

/-- C10: neither `next_event` nor `next_event_or_tick` ever removes an entry
from the internal `events` queue; and when the event delivered by a
successful `next_event` is the front of that queue (against a store whose
rows are well-formed), the very same event is peeked again immediately after
the call, so every subsequent advancement whose candidate tick reaches its
timestamp would deliver it again. -/
theorem events_queue_never_consumed (store : Store) (m : QuestDbMarket)
    (d : ℤ) :
    (next_event store m).1.events = m.events ∧
    (next_event_or_tick store m d).1.events = m.events ∧
    (store.fail = false →
      (∀ r ∈ store.systemRows, ∃ e2, parse_system_event r.1 = Except.ok e2) →
      ∀ t ev, m.events.head? = some (t, ev) →
        (next_event store m).2 = Except.ok (some (t, ev)) →
        peek_next_event store (next_event store m).1
          = Except.ok (some (t, ev))) := by
  refine ⟨next_event_events_eq store m, next_event_or_tick_events_eq store m d, ?_⟩
  intro hfail hwf t ev hhead hok
  have htime := next_event_ok_time store m t ev hok
  have hevq := next_event_events_eq store m
  have hcong : peek_next_event store (next_event store m).1
      = peek_next_event store { m with time := t } := by
    apply peek_congr
    · exact htime
    · exact hevq
  rw [hcong]
  exact peek_front_again store { m with time := t } t ev hfail hwf hhead rfl

/-- Store with one well-formed system event far in the future. -/
def frontStore : Store :=
  { fail := false, systemRows := [("system_hours_start", 100)], tickRows := [] }

/-- State whose internal queue holds one event, due before the store's. -/
def frontM : QuestDbMarket :=
  { time := 3, market_time := MarketTime.unknown
    events := [(5, Event.preMarketStart)], cash := 0, holdings := [] }

/-- Concrete instance of C10: after `next_event` delivers the queue front
`(5, PreMarketStart)`, peeking returns that same event again. -/
theorem events_queue_never_consumed_witness :
    peek_next_event frontStore (next_event frontStore frontM).1
      = Except.ok (some (5, Event.preMarketStart)) :=
  (events_queue_never_consumed frontStore frontM 1).2.2 rfl
    (by
      intro r hr
      have hr2 : r = ("system_hours_start", 100) := by
        simp only [frontStore] at hr
        simpa using hr
      rw [hr2]
      exact ⟨Event.preMarketStart, by decide⟩)
    5 Event.preMarketStart rfl (by decide)

/-- C2: for every state with an empty internal queue (every reachable state,
by `reachable_events_nil`) and a tick duration whose truncation succeeds,
with `candidate = trunc(time, d) + d` (the floor of the clock to a
`d`-boundary plus `d`): a successfully peeked event with timestamp
`E ≤ candidate` is delivered — the phase is updated, the clock advances to
`E`, `(E, event)` is returned, and the event is consumed (every later peek
only yields timestamps strictly after `E`); otherwise `(candidate, Tick)` is
returned and the clock advances to `candidate`.  The `≤` tie-break means an
event exactly on the candidate boundary wins over the tick. -/
theorem next_event_or_tick_merge (store : Store) (m : QuestDbMarket) (d : ℤ)
    (hev : m.events = []) (hd : 0 < d) (habs : d ≤ |m.time|) :
    (∀ E ev mt, peek_next_event store m = Except.ok (some (E, ev)) →
      E ≤ m.time - m.time % d + d →
      MarketTime.update m.market_time ev = Except.ok mt →
      next_event_or_tick store m d
        = ({ m with market_time := mt, time := E }, Outcome.ok (E, ev)) ∧
      (∀ t2 ev2,
        peek_next_event store { m with market_time := mt, time := E }
          = Except.ok (some (t2, ev2)) → E < t2)) ∧
    (∀ E ev, peek_next_event store m = Except.ok (some (E, ev)) →
      m.time - m.time % d + d < E →
      next_event_or_tick store m d
        = ({ m with time := m.time - m.time % d + d },
           Outcome.ok (m.time - m.time % d + d, Event.tick))) ∧
    (peek_next_event store m = Except.ok none →
      next_event_or_tick store m d
        = ({ m with time := m.time - m.time % d + d },
           Outcome.ok (m.time - m.time % d + d, Event.tick))) := by
  have htr := duration_trunc_pos m.time d hd habs
  refine ⟨?_, ?_, ?_⟩
  · intro E ev mt hpk hle hup
    constructor
    · unfold next_event_or_tick
      rw [htr]
      simp only []
      rw [hpk]
      simp only []
      rw [if_pos hle, hup]
    · intro t2 ev2 hpk2
      rw [peek_events_nil store
        { m with market_time := mt, time := E } hev] at hpk2
      exact next_system_event_future store
        { m with market_time := mt, time := E } t2 ev2 hpk2
  · intro E ev hpk hgt
    unfold next_event_or_tick
    rw [htr]
    simp only []
    rw [hpk]
    simp only []
    rw [if_neg (not_le.mpr hgt)]
  · intro hpk
    unfold next_event_or_tick
    rw [htr]
    simp only []
    rw [hpk]

/-- Store with one boundary event exactly on the next tick boundary. -/
def mergeStore : Store :=
  { fail := false, systemRows := [("regular_hours_end", 120)], tickRows := [] }

/-- Regular-hours state at time 60 with empty queue. -/
def mergeM : QuestDbMarket :=
  { time := 60, market_time := MarketTime.regular, events := [], cash := 0,
    holdings := [] }

/-- Concrete instance of C2's tie-break: the candidate tick is 120 and the
external `RegularMarketEnd` at exactly 120 wins over the tick. -/
theorem next_event_or_tick_merge_witness :
    next_event_or_tick mergeStore mergeM 60
      = ({ mergeM with market_time := MarketTime.postMarket, time := 120 },
         Outcome.ok (120, Event.regularMarketEnd)) :=
  ((next_event_or_tick_merge mergeStore mergeM 60 rfl (by decide)
    (by decide)).1 120 Event.regularMarketEnd MarketTime.postMarket
    (by decide) (by decide) (by decide)).1

/-- C4 (amended): provided every price in the store is non-negative, every
successful `buy_at_market` or `sell_at_market` from a state with
`cash ≥ 0` (as established by `new` with non-negative initial cash) leaves
`cash ≥ 0`; per-symbol share counts are `ℕ` (`u32` in the source) and are
non-negative by construction.  Without the non-negative-price hypothesis the
claim fails: see the counterexample, where successful trades at negative
store prices drive a reachable ledger's cash below zero. -/
theorem ledger_cash_nonneg (store : Store) (m : QuestDbMarket)
    (symbol : String) (quantity : ℕ)
    (hprices : ∀ r ∈ store.tickRows, 0 ≤ r.2.2) (hcash : 0 ≤ m.cash) :
    (∀ m2, buy_at_market store m symbol quantity = (m2, Except.ok ()) →
      0 ≤ m2.cash) ∧
    (∀ m2, sell_at_market store m symbol quantity = (m2, Except.ok ()) →
      0 ≤ m2.cash) := by
  constructor
  · intro m2 h
    unfold buy_at_market at h
    by_cases ho : m.market_time.is_open
    · rw [if_neg (not_not_intro ho)] at h
      cases hp : current_price store m symbol with
      | error e => rw [hp] at h; simp at h
      | ok p =>
        rw [hp] at h
        simp only [] at h
        by_cases hc : p * (quantity : ℚ) > m.cash
        · rw [if_pos hc] at h
          simp at h
        · rw [if_neg hc] at h
          injection h with h1 h2
          rw [← h1]
          simp only []
          exact sub_nonneg.mpr (not_lt.mp hc)
    · rw [if_pos ho] at h
      simp at h
  · intro m2 h
    unfold sell_at_market at h
    by_cases ho : m.market_time.is_open
    · rw [if_neg (not_not_intro ho)] at h
      cases hp : current_price store m symbol with
      | error e => rw [hp] at h; simp at h
      | ok p =>
        have hp0 : 0 ≤ p := by
          obtain ⟨r, hr, hrp⟩ := price_at_ok_mem store m symbol m.time p hp
          exact hrp ▸ hprices r hr
        rw [hp] at h
        simp only [] at h
        cases hg : alGet m.holdings symbol with
        | none => rw [hg] at h; simp at h
        | some owned =>
          rw [hg] at h
          simp only [] at h
          by_cases hq : quantity > owned
          · rw [if_pos hq] at h
            simp at h
          · rw [if_neg hq] at h
            injection h with h1 h2
            rw [← h1]
            simp only []
            exact add_nonneg hcash (mul_nonneg hp0 (Nat.cast_nonneg quantity))
    · rw [if_pos ho] at h
      simp at h

/-- Store with one session event and two negative prices for "A". -/
def negStore : Store :=
  { fail := false
    systemRows := [("system_hours_start", 1)]
    tickRows := [("A", 0, -1), ("A", 2, -20)] }

/-- After one `next_event` from `new 0 100`: time 1, pre-market, cash 100. -/
def negM1 : QuestDbMarket := (next_event negStore (QuestDbMarket.new 0 100)).1

/-- After buying 10 shares of "A" at price -1: cash 110, 10 shares. -/
def negM2 : QuestDbMarket := (buy_at_market negStore negM1 "A" 10).1

/-- After one tick to time 2, where "A" is priced -20. -/
def negM3 : QuestDbMarket := (next_event_or_tick negStore negM2 1).1

/-- C4 counterexample: from `new 0 100` (non-negative initial cash), a
reachable sequence of successful calls — one session event, one buy, one
tick, one sell, all at prices the store actually returns — leaves
`cash = -90 < 0`. -/
theorem ledger_cash_nonneg_cex :
    (next_event negStore (QuestDbMarket.new 0 100)).2
      = Except.ok (some (1, Event.preMarketStart)) ∧
    (buy_at_market negStore negM1 "A" 10).2 = Except.ok () ∧
    (next_event_or_tick negStore negM2 1).2 = Outcome.ok (2, Event.tick) ∧
    (sell_at_market negStore negM3 "A" 10).2 = Except.ok () ∧
    (sell_at_market negStore negM3 "A" 10).1.cash < 0 := by
  with_unfolding_all decide

/-- Store with one session event and a non-negative price for "A". -/
def posStore : Store :=
  { fail := false, systemRows := [("system_hours_start", 1)],
    tickRows := [("A", 0, 1)] }

/-- Open pre-market state at time 1 with cash 100. -/
def posM : QuestDbMarket :=
  { time := 1, market_time := MarketTime.preMarket, events := [], cash := 100,
    holdings := [] }

/-- Concrete instance of the amended C4: after a successful buy at a
non-negative price, cash is still non-negative. -/
theorem ledger_cash_nonneg_witness :
    0 ≤ (buy_at_market posStore posM "A" 10).1.cash :=
  (ledger_cash_nonneg posStore posM "A" 10 (by decide) (by decide)).1
    (buy_at_market posStore posM "A" 10).1 (by with_unfolding_all decide)

/-- The call made after `k` previous `next_event_or_tick` calls, each
continuing from the state the previous call left. -/
def runTicks (store : Store) (m : QuestDbMarket) (d : ℤ) :
    ℕ → QuestDbMarket × Outcome (ℤ × Event)
  | 0 => next_event_or_tick store m d
  | Nat.succ k => runTicks store (next_event_or_tick store m d).1 d k

theorem tick_only_step (store : Store) (m : QuestDbMarket) (d : ℤ)
    (hfail : store.fail = false) (hrows : store.systemRows = [])
    (hev : m.events = []) (hd : 0 < d) (hdm : d ≤ m.time) :
    next_event_or_tick store m d
      = ({ m with time := m.time - m.time % d + d },
         Outcome.ok (m.time - m.time % d + d, Event.tick)) := by
  have habs : d ≤ |m.time| := le_trans hdm (le_abs_self _)
  have htr := duration_trunc_pos m.time d hd habs
  have hpeek : peek_next_event store m = Except.ok none := by
    rw [peek_events_nil store m hev]
    unfold next_system_event
    rw [if_neg (by rw [hfail]; exact Bool.false_ne_true), hrows]
    rfl
  unfold next_event_or_tick
  rw [htr]
  simp only []
  rw [hpeek]

theorem tickFloor_mul (t d : ℤ) : t - t % d = d * (t / d) := by
  rw [Int.emod_def]
  ring

theorem tickFloor_nonneg (t d : ℤ) (ht : 0 ≤ t) (hd : 0 < d) :
    0 ≤ t - t % d := by
  rw [tickFloor_mul]
  exact mul_nonneg (le_of_lt hd) (Int.ediv_nonneg ht (le_of_lt hd))

theorem tickFloor_self (t d : ℤ) (hdvd : d ∣ t) : t - t % d = t := by
  rw [Int.emod_eq_zero_of_dvd hdvd, sub_zero]

theorem runTicks_tick (store : Store) (d : ℤ)
    (hfail : store.fail = false) (hrows : store.systemRows = [])
    (hd : 0 < d) :
    ∀ (k : ℕ) (m : QuestDbMarket), m.events = [] → d ≤ m.time →
      (runTicks store m d k).2
        = Outcome.ok (m.time - m.time % d + ((k : ℤ) + 1) * d, Event.tick) := by
  intro k
  induction k with
  | zero =>
    intro m hev hdm
    unfold runTicks
    rw [tick_only_step store m d hfail hrows hev hd hdm]
    norm_num
  | succ k ih =>
    intro m hev hdm
    unfold runTicks
    rw [tick_only_step store m d hfail hrows hev hd hdm]
    have h0t : 0 ≤ m.time := le_trans (le_of_lt hd) hdm
    have hT0 : 0 ≤ m.time - m.time % d := tickFloor_nonneg _ _ h0t hd
    have hdm2 : d ≤ ({ m with time := m.time - m.time % d + d } :
        QuestDbMarket).time := by
      simp only []
      linarith
    have hih := ih { m with time := m.time - m.time % d + d } hev hdm2
    rw [hih]
    have hdvd : d ∣ (m.time - m.time % d + d) :=
      dvd_add ⟨m.time / d, tickFloor_mul m.time d⟩ dvd_rfl
    have hTs := tickFloor_self (m.time - m.time % d + d) d hdvd
    simp only [] at hTs ⊢
    rw [hTs]
    have harith : m.time - m.time % d + d + ((k : ℤ) + 1) * d
        = m.time - m.time % d + (((Nat.succ k : ℕ) : ℤ) + 1) * d := by
      push_cast
      ring
    rw [harith]

/-- C9 (amended): with no pending external events (empty feed and queue) and
a positive tick duration `d ≤ start` (so each truncation in the run is
defined), the `k`-th `next_event_or_tick(d)` call returns the timestamp
`trunc(start, d) + (k+1)·d` with a `Tick`: the returned timestamps are
strictly increasing and exactly `d` apart, and the first one,
`trunc(start, d) + d`, is the least `d`-boundary STRICTLY greater than the
start time.  When the start time itself lies on a `d`-boundary that boundary
is skipped (see the counterexample), so the claim's "first boundary greater
than or equal to the start" does not hold on the code. -/
theorem ticks_progression (store : Store) (m : QuestDbMarket) (d : ℤ) (k : ℕ)
    (hfail : store.fail = false) (hrows : store.systemRows = [])
    (hev : m.events = []) (hd : 0 < d) (hdm : d ≤ m.time) :
    (runTicks store m d k).2
      = Outcome.ok (m.time - m.time % d + ((k : ℤ) + 1) * d, Event.tick) ∧
    m.time < m.time - m.time % d + d ∧
    (∀ b : ℤ, d ∣ b → m.time < b → m.time - m.time % d + d ≤ b) := by
  refine ⟨runTicks_tick store d hfail hrows hd k m hev hdm, ?_, ?_⟩
  · have h1 : m.time % d < d := Int.emod_lt_of_pos m.time hd
    linarith
  · intro b hb hlt
    obtain ⟨c, hc⟩ := hb
    have hq : m.time - m.time % d = d * (m.time / d) := tickFloor_mul m.time d
    have h3 : 0 ≤ m.time % d := Int.emod_nonneg m.time (ne_of_gt hd)
    have h2 : d * (m.time / d) ≤ m.time := by linarith [hq]
    have hb2 : m.time < d * c := hc ▸ hlt
    have h4 : d * (m.time / d) < d * c := lt_of_le_of_lt h2 hb2
    have h5 : m.time / d < c := lt_of_mul_lt_mul_left h4 (le_of_lt hd)
    have h6 : d * (m.time / d + 1) ≤ d * c :=
      mul_le_mul_of_nonneg_left (by linarith) (le_of_lt hd)
    have h7 : d * (m.time / d + 1) = d * (m.time / d) + d := by ring
    rw [hq, hc]
    linarith

/-- Store with no events at all. -/
def tidesStore : Store := { fail := false, systemRows := [], tickRows := [] }

/-- State whose start time 60 lies exactly on the 60-boundary. -/
def boundaryM : QuestDbMarket :=
  { time := 60, market_time := MarketTime.regular, events := [], cash := 0,
    holdings := [] }

/-- C9 counterexample: with no pending events and start time 60, the first
`next_event_or_tick(60)` call returns timestamp 120, although 60 itself is a
60-boundary greater than or equal to the start time: the first returned
timestamp is not the first boundary ≥ start when the start lies on a
boundary. -/
theorem ticks_progression_cex :
    (next_event_or_tick tidesStore boundaryM 60).2
      = Outcome.ok (120, Event.tick) ∧
    (60 : ℤ) % 60 = 0 ∧ boundaryM.time ≤ 60 ∧ (120 : ℤ) ≠ 60 := by
  decide

/-- State starting off-boundary at time 100. -/
def tickM : QuestDbMarket :=
  { time := 100, market_time := MarketTime.regular, events := [], cash := 0,
    holdings := [] }

/-- Concrete instance of the amended C9: from start 100 with `d = 60`, the
second call (k = 1) returns `trunc(100, 60) + 2·60 = 180`. -/
theorem ticks_progression_witness :
    (runTicks tidesStore tickM 60 1).2 = Outcome.ok (180, Event.tick) := by
  rw [(ticks_progression tidesStore tickM 60 1 rfl rfl rfl (by decide)
    (by decide)).1]
  decide

end MmatammInterface
